import Mathlib

/-!
Verification of the filesystem MCP server in `src/index.mjs`.

The server exposes a base directory over six request handlers: list
resources, read resource, list tools, call tool, complete, list prompts and
get prompt.  We shallowly embed the filesystem as an inductive tree and each
handler as a pure function over it; `await`ed filesystem calls that can
reject are modelled with `Except`, and a rejected promise that a handler
does not catch shows up as the `Except.error` it propagates.
-/

/-- A node of the modelled filesystem.  `file` is a regular file with its
text contents.  `dir` is a readable directory: `readdir` on it succeeds and
returns its entries in order.  `badDir` is a directory whose `readdir`
rejects with the given error message (permission denied, vanished directory,
symlink loop, ...): `Dirent.isDirectory()` reports it as a directory, but
reading it fails. -/
inductive FSNode where
  | file (contents : String) : FSNode
  | dir (entries : List (String × FSNode)) : FSNode
  | badDir (msg : String) : FSNode

/-- Model of `Dirent.isDirectory()`. -/
def isDirNode : FSNode → Bool
  | .file _ => false
  | .dir _ => true
  | .badDir _ => true

/-- Model of `path.relative(BASE_DIR, join(BASE_DIR, ...segs))`: the
segments joined with the POSIX separator. -/
def renderPath : List String → String
  | [] => ""
  | [s] => s
  | s :: rest => s ++ "/" ++ renderPath rest

/-! `listFilesRecursively` from `src/index.mjs`.  The JS function takes an
absolute directory path, `readdir`s it with file types, pushes
`relative(BASE_DIR, fullPath)` for each non-directory entry and splices the
recursive result for each directory entry.  We track the directory as its
node together with `pre`, its path relative to `BASE_DIR`; the `for` loop
over the entries is the recursion on `.dir rest`.  An error anywhere aborts
the whole call, exactly as an uncaught promise rejection does. -/
mutual

/-- `listFilesRecursively` from `src/index.mjs`: see the comment above. -/
def listFilesRecursively (fs : FSNode) (pre : List String) :
    Except String (List String) :=
  match fs with
  | .badDir msg => .error msg
  | .file _ => .error "ENOTDIR: not a directory"
  | .dir entries => walkEntries entries pre

/-- The body of the walker's `for` loop over the entries that `readdir`
returned, with `pre` the directory's path relative to `BASE_DIR`. -/
def walkEntries (items : List (String × FSNode)) (pre : List String) :
    Except String (List String) :=
  match items with
  | [] => .ok []
  | (name, child) :: rest =>
    if isDirNode child then
      match listFilesRecursively child (pre ++ [name]) with
      | .error e => .error e
      | .ok sub =>
        match walkEntries rest pre with
        | .ok tail => .ok (sub ++ tail)
        | .error e => .error e
    else
      match walkEntries rest pre with
      | .ok tail => .ok (renderPath (pre ++ [name]) :: tail)
      | .error e => .error e

end

/-- A plausible entry name on a real filesystem: nonempty and free of the
path separator. -/
def validName (s : String) : Bool :=
  decide (s ≠ "") && decide ('/' ∉ s.data)

/-! A well-formed directory tree: every directory is readable, entry names
within one directory are distinct (as on a real filesystem), and every name
is a `validName`. -/
mutual

/-- Well-formedness of one node: see the comment above. -/
def goodTree : FSNode → Bool
  | .file _ => true
  | .badDir _ => false
  | .dir entries => goodEntries entries

def goodEntries : List (String × FSNode) → Bool
  | [] => true
  | (n, c) :: rest =>
    validName n && goodTree c && rest.all (fun pr => !(pr.1 == n)) &&
      goodEntries rest

end

/-! The set of regular-file paths in a tree, as segment lists, in the same
depth-first entry order the walker uses. -/
mutual

/-- File paths below one node: see the comment above. -/
def filePaths : FSNode → List (List String)
  | .file _ => []
  | .badDir _ => []
  | .dir entries => entryPaths entries

def entryPaths : List (String × FSNode) → List (List String)
  | [] => []
  | (n, c) :: rest =>
    (if isDirNode c then (filePaths c).map (fun p => n :: p) else [[n]]) ++
      entryPaths rest

end

/-- Look up a directory entry by name (first match). -/
def findEntry (n : String) : List (String × FSNode) → Option FSNode
  | [] => none
  | (m, c) :: rest => if m = n then some c else findEntry n rest

/-- Resolve a segment path against a tree, descending through directories
only: the node the OS would reach from the tree's root. -/
def nodeAt : FSNode → List String → Option FSNode
  | fs, [] => some fs
  | .dir entries, n :: rest =>
    match findEntry n entries with
    | some child => nodeAt child rest
    | none => none
  | .file _, _ :: _ => none
  | .badDir _, _ :: _ => none

def splitCharsAux : List Char → List Char → List String
  | [], acc => [String.mk acc.reverse]
  | c :: rest, acc =>
    if c = '/' then String.mk acc.reverse :: splitCharsAux rest []
    else splitCharsAux rest (c :: acc)

/-- Split a path string on the POSIX separator: the segments the OS
resolves one by one when the path is opened. -/
def splitPath (p : String) : List String := splitCharsAux p.data []

/-- Model of `fs.readFile` at the node that `segs` resolves to. -/
def readFileFS (fs : FSNode) (segs : List String) : Except String String :=
  match nodeAt fs segs with
  | some (.file c) => .ok c
  | some (.dir _) => .error "EISDIR: illegal operation on a directory"
  | some (.badDir m) => .error m
  | none => .error "ENOENT: no such file or directory"

/-- Model of `readFile(join(BASE_DIR, path), "utf-8")`: resolve the
caller-supplied relative path against the base directory tree. -/
def readFileRel (fs : FSNode) (path : String) : Except String String :=
  readFileFS fs (splitPath path)

/-- Model of the plain `readdir(BASE_DIR)` call used by non-recursive
`list-files`: the immediate entry names, files and subdirectories alike. -/
def readdirNames (fs : FSNode) : Except String (List String) :=
  match fs with
  | .dir entries => .ok (entries.map Prod.fst)
  | .badDir m => .error m
  | .file _ => .error "ENOTDIR: not a directory"

/-- The `arguments` object of a call-tool request; each tool reads the
field it cares about, absent fields behave like `undefined`. -/
structure ToolArgs where
  recursive : Option Bool
  path : Option String

structure CallToolRequest where
  name : String
  arguments : Option ToolArgs

/-- What the handler puts into `content[0].text`: the file list (its JSON
rendering is elided) for `list-files`, the raw contents for `read-file`. -/
inductive ToolPayload where
  | fileList (files : List String)
  | fileText (contents : String)

/-- The `CallToolRequestSchema` handler.  State-passing embedding: the
second component is the filesystem after the call; the source performs no
write anywhere, so every branch returns it unchanged. -/
def callTool (fs : FSNode) (req : CallToolRequest) :
    Except String ToolPayload × FSNode :=
  if req.name = "list-files" then
    let recursive := (req.arguments.bind ToolArgs.recursive).getD false
    match (if recursive then listFilesRecursively fs []
           else readdirNames fs) with
    | .ok files => (.ok (.fileList files), fs)
    | .error e => (.error ("Failed to list files: " ++ e), fs)
  else if req.name = "read-file" then
    match req.arguments.bind ToolArgs.path with
    | none => (.error "Path is required", fs)
    | some p =>
      if p = "" then (.error "Path is required", fs)
      else
        match readFileRel fs p with
        | .ok contents => (.ok (.fileText contents), fs)
        | .error e => (.error ("Failed to read file: " ++ e), fs)
  else (.error "Tool not found", fs)

def FILE_PROMPT_NAME : String := "file-contents"

/-- Model of `String.prototype.toLowerCase`. -/
def lowerStr (s : String) : String := String.mk (s.data.map Char.toLower)

def listStarts : List Char → List Char → Bool
  | [], _ => true
  | _ :: _, [] => false
  | a :: as, b :: bs => a == b && listStarts as bs

/-- Model of `String.prototype.includes`: `needle` occurs contiguously
somewhere in `hay`. -/
def listIncludes (needle hay : List Char) : Bool :=
  listStarts needle hay ||
    match hay with
    | [] => false
    | _ :: bs => listIncludes needle bs

def strIncludes (hay needle : String) : Bool :=
  listIncludes needle.data hay.data

/-- The `CompleteRequestSchema` handler: walk the whole tree, keep the
entries whose lowered relative path contains the lowered query. -/
def completeHandler (fs : FSNode) (refName : String) (queryValue : String) :
    Except String (List String) :=
  if refName = FILE_PROMPT_NAME then
    match listFilesRecursively fs [] with
    | .error e => .error e
    | .ok files =>
      .ok (files.filter (fun file =>
        strIncludes (lowerStr file) (lowerStr queryValue)))
  else .error "unknown prompt"

structure MCPResource where
  uri : String
  mimeType : String
  name : String

/-- Model of `path.join(baseDir, rel)` for a relative `rel`. -/
def joinPath (baseDir rel : String) : String := baseDir ++ "/" ++ rel

/-- The `ListResourcesRequestSchema` handler. -/
def listResources (baseDir : String) (fs : FSNode) :
    Except String (List MCPResource) :=
  match listFilesRecursively fs [] with
  | .error e => .error e
  | .ok files =>
    .ok (files.map (fun file =>
      { uri := "file://" ++ joinPath baseDir file,
        mimeType := "text/plain", name := file }))

/-- A get-prompt response: the description and the text of the single
user-role message. -/
structure GetPromptResult where
  description : String
  messageText : String

/-- The `GetPromptRequestSchema` handler.  `pathArg` is
`request.params.arguments?.path`; a missing or non-string value fails the
`typeof` test and is modelled as `none`. -/
def getPrompt (fs : FSNode) (promptName : String) (pathArg : Option String) :
    Except String GetPromptResult :=
  if promptName = FILE_PROMPT_NAME then
    match pathArg with
    | none => .error "Invalid path: undefined"
    | some p =>
      if p.length = 0 then .error ("Invalid path: " ++ p)
      else
        match readFileRel fs p with
        | .ok contents =>
          .ok { description := "Contents of " ++ p, messageText := contents }
        | .error e => .error ("Failed to read file: " ++ e)
  else .error ("Prompt \x27" ++ promptName ++ "\x27 not implemented")

structure ReadResourceResult where
  uri : String
  mimeType : String
  text : String

/-- Model of `new URL(uri).pathname` for a `file://`-scheme URI with an
empty host: the characters after the 7-character scheme prefix. -/
def uriPathname (uri : String) : String := String.mk (uri.data.drop 7)

/-- Model of `readFile(filePath)` for an absolute path string: the leading
separator splits off an empty first segment, the rest are resolved from
the filesystem root. -/
def readFileAbs (root : FSNode) (path : String) : Except String String :=
  match splitPath path with
  | s :: segs =>
    if s = "" then readFileFS root segs
    else .error "ENOENT: no such file or directory"
  | [] => .error "ENOENT: no such file or directory"

/-- The `ReadResourceRequestSchema` handler: take the URI pathname and read
it as an absolute path; the base directory plays no part. -/
def readResource (root : FSNode) (uri : String) :
    Except String ReadResourceResult :=
  match readFileAbs root (uriPathname uri) with
  | .ok contents =>
    .ok { uri := uri, mimeType := "text/plain", text := contents }
  | .error e => .error ("Failed to read file: " ++ e)

theorem listFilesRecursively_badDir (m : String) (pre : List String) :
    listFilesRecursively (.badDir m) pre = .error m := rfl

theorem listFilesRecursively_file (c : String) (pre : List String) :
    listFilesRecursively (.file c) pre =
      .error "ENOTDIR: not a directory" := rfl

theorem listFilesRecursively_dir_nil (pre : List String) :
    listFilesRecursively (.dir []) pre = .ok [] := rfl

theorem listFilesRecursively_dir_cons (name : String) (child : FSNode)
    (rest : List (String × FSNode)) (pre : List String) :
    listFilesRecursively (.dir ((name, child) :: rest)) pre =
      if isDirNode child then
        match listFilesRecursively child (pre ++ [name]) with
        | .error e => .error e
        | .ok sub =>
          match listFilesRecursively (.dir rest) pre with
          | .ok tail => .ok (sub ++ tail)
          | .error e => .error e
      else
        match listFilesRecursively (.dir rest) pre with
        | .ok tail => .ok (renderPath (pre ++ [name]) :: tail)
        | .error e => .error e := rfl

example : listFilesRecursively (.dir [("a.txt", .file "hi"),
    ("sub", .dir [("b.txt", .file "yo")])]) [] =
    .ok ["a.txt", "sub/b.txt"] := rfl

theorem goodTree_badDir (m : String) : goodTree (.badDir m) = false := rfl

theorem goodTree_dir_cons (n : String) (c : FSNode)
    (rest : List (String × FSNode)) :
    goodTree (.dir ((n, c) :: rest)) =
      (validName n && goodTree c && rest.all (fun pr => !(pr.1 == n)) &&
        goodTree (.dir rest)) := rfl

theorem filePaths_file (c : String) : filePaths (.file c) = [] := rfl

theorem filePaths_badDir (m : String) : filePaths (.badDir m) = [] := rfl

theorem filePaths_dir_nil : filePaths (.dir []) = [] := rfl

theorem filePaths_dir_cons (n : String) (c : FSNode)
    (rest : List (String × FSNode)) :
    filePaths (.dir ((n, c) :: rest)) =
      (if isDirNode c then (filePaths c).map (fun p => n :: p) else [[n]]) ++
        filePaths (.dir rest) := rfl

/-- Induction along the walker's recursion: a property holds of every node
as soon as it is preserved by peeling one directory entry. -/
theorem FSNode.loopInduct (P : FSNode → Prop)
    (hfile : ∀ c, P (.file c))
    (hbad : ∀ m, P (.badDir m))
    (hnil : P (.dir []))
    (hcons : ∀ n c rest, P c → P (.dir rest) → P (.dir ((n, c) :: rest))) :
    ∀ fs, P fs
  | .file c => hfile c
  | .badDir m => hbad m
  | .dir [] => hnil
  | .dir ((n, c) :: rest) =>
    hcons n c rest (FSNode.loopInduct P hfile hbad hnil hcons c)
      (FSNode.loopInduct P hfile hbad hnil hcons (.dir rest))
termination_by fs => sizeOf fs
decreasing_by all_goals (simp_wf <;> omega)

theorem goodTree_cons {n : String} {c : FSNode}
    {rest : List (String × FSNode)}
    (h : goodTree (.dir ((n, c) :: rest)) = true) :
    validName n = true ∧ goodTree c = true ∧
      (∀ pr ∈ rest, pr.1 ≠ n) ∧ goodTree (.dir rest) = true := by
  simp only [goodTree_dir_cons, Bool.and_eq_true, List.all_eq_true] at h
  obtain ⟨⟨⟨h1, h2⟩, h3⟩, h4⟩ := h
  refine ⟨h1, h2, ?_, h4⟩
  intro pr hpr
  have := h3 pr hpr
  simpa using this

theorem goodTree_mem {entries : List (String × FSNode)}
    (h : goodTree (.dir entries) = true) :
    ∀ pr ∈ entries, validName pr.1 = true ∧ goodTree pr.2 = true := by
  induction entries with
  | nil => intro pr hpr; simp at hpr
  | cons hd tl ih =>
    obtain ⟨n, c⟩ := hd
    obtain ⟨h1, h2, _, h4⟩ := goodTree_cons h
    intro pr hpr
    rcases List.mem_cons.mp hpr with heq | hmem
    · subst heq; exact ⟨h1, h2⟩
    · exact ih h4 pr hmem

theorem findEntry_mem {n : String} {c : FSNode}
    {l : List (String × FSNode)} (h : findEntry n l = some c) :
    (n, c) ∈ l := by
  induction l with
  | nil => simp [findEntry] at h
  | cons hd tl ih =>
    obtain ⟨m, c0⟩ := hd
    by_cases hm : m = n
    · subst hm
      simp [findEntry] at h
      subst h
      exact List.mem_cons_self _ _
    · simp [findEntry, hm] at h
      exact List.mem_cons_of_mem _ (ih h)

theorem walker_eq_filePaths (fs : FSNode) :
    goodTree fs = true → isDirNode fs = true →
    ∀ pre, listFilesRecursively fs pre =
      .ok ((filePaths fs).map (fun p => renderPath (pre ++ p))) := by
  induction fs using FSNode.loopInduct with
  | hfile c => intro _ hd; simp [isDirNode] at hd
  | hbad m => intro hg; simp [goodTree_badDir] at hg
  | hnil => intro _ _ pre; simp [listFilesRecursively_dir_nil, filePaths_dir_nil]
  | hcons n c rest ihc ihr =>
    intro hg _ pre
    obtain ⟨hn, hc, hdisj, hrest⟩ := goodTree_cons hg
    by_cases hdir : isDirNode c = true
    · have h1 := ihc hc hdir (pre ++ [n])
      have h2 := ihr hrest rfl pre
      simp only [listFilesRecursively_dir_cons, hdir, if_true, h1, h2,
        filePaths_dir_cons]
      simp [List.map_append, List.map_map, Function.comp_def,
        List.append_assoc]
    · have h2 := ihr hrest rfl pre
      simp only [listFilesRecursively_dir_cons, hdir, if_false, h2,
        filePaths_dir_cons]
      simp [hdir]

theorem filePaths_head {entries : List (String × FSNode)} :
    ∀ p ∈ filePaths (.dir entries),
      ∃ m q, p = m :: q ∧ m ∈ entries.map Prod.fst := by
  induction entries with
  | nil => simp [filePaths_dir_nil]
  | cons hd tl ih =>
    obtain ⟨n, c⟩ := hd
    intro p hp
    simp only [filePaths_dir_cons, List.mem_append] at hp
    rcases hp with h | h
    · by_cases hdir : isDirNode c = true
      · simp [hdir] at h
        obtain ⟨q, hq, rfl⟩ := h
        exact ⟨n, q, rfl, by simp⟩
      · simp [hdir] at h
        subst h
        exact ⟨n, [], rfl, by simp⟩
    · obtain ⟨m, q, rfl, hm⟩ := ih p h
      exact ⟨m, q, rfl, by simp [hm]⟩

theorem mem_filePaths (fs : FSNode) :
    goodTree fs = true →
    ∀ p, p ∈ filePaths fs ↔ p ≠ [] ∧ ∃ c, nodeAt fs p = some (.file c) := by
  induction fs using FSNode.loopInduct with
  | hfile c =>
    intro _ p
    simp only [filePaths_file, List.not_mem_nil, false_iff]
    rintro ⟨hne, c2, hc2⟩
    cases p with
    | nil => exact hne rfl
    | cons a q => simp [nodeAt] at hc2
  | hbad m => intro hg; simp [goodTree_badDir] at hg
  | hnil =>
    intro _ p
    simp only [filePaths_dir_nil, List.not_mem_nil, false_iff]
    rintro ⟨hne, c2, hc2⟩
    cases p with
    | nil => simp [nodeAt] at hc2
    | cons a q => simp [nodeAt, findEntry] at hc2
  | hcons n c rest ihc ihr =>
    intro hg p
    obtain ⟨hn, hc, hdisj, hrest⟩ := goodTree_cons hg
    cases p with
    | nil =>
      simp only [ne_eq, not_true_eq_false, false_and, iff_false]
      intro hmem
      simp only [filePaths_dir_cons, List.mem_append] at hmem
      rcases hmem with h | h
      · by_cases hdir : isDirNode c = true
        · simp [hdir] at h
        · simp [hdir] at h
      · exact ((ihr hrest []).mp h).1 rfl
    | cons m q =>
      by_cases hm : n = m
      · subst hm
        have hnode : nodeAt (FSNode.dir ((n, c) :: rest)) (n :: q) =
            nodeAt c q := by
          simp [nodeAt, findEntry]
        rw [hnode]
        constructor
        · intro hmem
          simp only [filePaths_dir_cons, List.mem_append] at hmem
          rcases hmem with h | h
          · by_cases hdir : isDirNode c = true
            · rw [if_pos hdir] at h
              simp only [List.mem_map] at h
              obtain ⟨a, ha, heq⟩ := h
              have haq : a = q := by injection heq with h1 h2
              subst haq
              exact ⟨by simp, ((ihc hc a).mp ha).2⟩
            · rw [if_neg hdir] at h
              simp only [List.mem_singleton] at h
              have hq : q = [] := by injection h with h1 h2
              subst hq
              cases c with
              | file ct => exact ⟨by simp, ct, by simp [nodeAt]⟩
              | dir e => simp [isDirNode] at hdir
              | badDir msg => simp [isDirNode] at hdir
          · exfalso
            obtain ⟨m2, q2, heq, hm2⟩ := filePaths_head _ h
            have hm2n : m2 = n := by
              injection heq with h1 h2
              exact h1.symm
            subst hm2n
            obtain ⟨pr, hpr, hpr1⟩ := List.mem_map.mp hm2
            exact hdisj pr hpr hpr1
        · rintro ⟨hne, fc, hfc⟩
          simp only [filePaths_dir_cons, List.mem_append]
          left
          by_cases hdir : isDirNode c = true
          · rw [if_pos hdir]
            simp only [List.mem_map]
            have hqne : q ≠ [] := by
              intro hq
              subst hq
              simp only [nodeAt, Option.some.injEq] at hfc
              subst hfc
              simp [isDirNode] at hdir
            exact ⟨q, (ihc hc q).mpr ⟨hqne, fc, hfc⟩, rfl⟩
          · rw [if_neg hdir]
            simp only [List.mem_singleton]
            cases c with
            | file ct =>
              cases q with
              | nil => rfl
              | cons a q2 => simp [nodeAt] at hfc
            | dir e => simp [isDirNode] at hdir
            | badDir msg => simp [isDirNode] at hdir
      · have hnode : nodeAt (FSNode.dir ((n, c) :: rest)) (m :: q) =
            nodeAt (FSNode.dir rest) (m :: q) := by
          simp [nodeAt, findEntry, hm]
        rw [hnode]
        constructor
        · intro hmem
          simp only [filePaths_dir_cons, List.mem_append] at hmem
          rcases hmem with h | h
          · exfalso
            by_cases hdir : isDirNode c = true
            · rw [if_pos hdir] at h
              simp only [List.mem_map] at h
              obtain ⟨a, ha, heq⟩ := h
              have hnm : n = m := by injection heq with h1 h2
              exact hm hnm
            · rw [if_neg hdir] at h
              simp only [List.mem_singleton] at h
              have hnm : m = n := by injection h with h1 h2
              exact hm hnm.symm
          · exact (ihr hrest (m :: q)).mp h
        · intro hr
          simp only [filePaths_dir_cons, List.mem_append]
          right
          exact (ihr hrest (m :: q)).mpr hr

theorem filePaths_nodup (fs : FSNode) :
    goodTree fs = true → (filePaths fs).Nodup := by
  induction fs using FSNode.loopInduct with
  | hfile c => intro _; simp [filePaths_file]
  | hbad m => intro hg; simp [goodTree_badDir] at hg
  | hnil => intro _; simp [filePaths_dir_nil]
  | hcons n c rest ihc ihr =>
    intro hg
    obtain ⟨hn, hc, hdisj, hrest⟩ := goodTree_cons hg
    simp only [filePaths_dir_cons]
    apply List.Nodup.append
    · by_cases hdir : isDirNode c = true
      · rw [if_pos hdir]
        exact (ihc hc).map (fun a b => by
          intro hab
          injection hab with h1 h2)
      · rw [if_neg hdir]
        simp
    · exact ihr hrest
    · intro p hp hp2
      obtain ⟨m2, q2, rfl, hm2⟩ := filePaths_head _ hp2
      obtain ⟨pr, hpr, hpr1⟩ := List.mem_map.mp hm2
      apply hdisj pr hpr
      by_cases hdir : isDirNode c = true
      · rw [if_pos hdir] at hp
        simp only [List.mem_map] at hp
        obtain ⟨a, _, heq⟩ := hp
        have : n = m2 := by injection heq with h1 h2
        rw [hpr1, ← this]
      · rw [if_neg hdir] at hp
        simp only [List.mem_singleton] at hp
        have : m2 = n := by injection hp with h1 h2
        rw [hpr1, this]

theorem filePaths_valid (fs : FSNode) :
    goodTree fs = true →
    ∀ p ∈ filePaths fs, p ≠ [] ∧ ∀ s ∈ p, validName s = true := by
  induction fs using FSNode.loopInduct with
  | hfile c => intro _ p hp; simp [filePaths_file] at hp
  | hbad m => intro hg; simp [goodTree_badDir] at hg
  | hnil => intro _ p hp; simp [filePaths_dir_nil] at hp
  | hcons n c rest ihc ihr =>
    intro hg p hp
    obtain ⟨hn, hc, hdisj, hrest⟩ := goodTree_cons hg
    simp only [filePaths_dir_cons, List.mem_append] at hp
    rcases hp with h | h
    · by_cases hdir : isDirNode c = true
      · rw [if_pos hdir] at h
        simp only [List.mem_map] at h
        obtain ⟨a, ha, rfl⟩ := h
        obtain ⟨hane, hav⟩ := ihc hc a ha
        refine ⟨by simp, ?_⟩
        intro s hs
        rcases List.mem_cons.mp hs with rfl | hs2
        · exact hn
        · exact hav s hs2
      · rw [if_neg hdir] at h
        simp only [List.mem_singleton] at h
        subst h
        refine ⟨by simp, ?_⟩
        intro s hs
        rcases List.mem_cons.mp hs with rfl | hs2
        · exact hn
        · simp at hs2
    · exact ihr hrest p h

theorem validName_spec {s : String} (h : validName s = true) :
    s ≠ "" ∧ '/' ∉ s.data := by
  simpa [validName] using h

theorem renderPath_ne_empty {p : List String}
    (hv : ∀ s ∈ p, validName s = true) (hne : p ≠ []) :
    renderPath p ≠ "" := by
  cases p with
  | nil => exact absurd rfl hne
  | cons a q =>
    cases q with
    | nil =>
      simp only [renderPath]
      exact (validName_spec (hv a (by simp))).1
    | cons b r =>
      simp only [renderPath]
      intro h
      have hdata : (a ++ "/" ++ renderPath (b :: r)).data = [] := by
        rw [h]
      simp [String.data_append] at hdata

theorem sep_split :
    ∀ (xs as ys bs : List Char), '/' ∉ xs → '/' ∉ as →
      xs ++ '/' :: ys = as ++ '/' :: bs → xs = as ∧ ys = bs := by
  intro xs
  induction xs with
  | nil =>
    intro as ys bs _ has h
    cases as with
    | nil => simpa using h
    | cons a as2 =>
      exfalso
      simp only [List.nil_append, List.cons_append] at h
      have ha : '/' = a := by injection h with h1 h2
      exact has (by rw [← ha]; exact List.mem_cons_self _ _)
  | cons x xs2 ih =>
    intro as ys bs hxs has h
    cases as with
    | nil =>
      exfalso
      simp only [List.cons_append, List.nil_append] at h
      have hx : x = '/' := by injection h with h1 h2
      exact hxs (by rw [← hx]; exact List.mem_cons_self _ _)
    | cons a as2 =>
      simp only [List.cons_append] at h
      have hxa : x = a := by injection h with h1 h2
      have htl : xs2 ++ '/' :: ys = as2 ++ '/' :: bs := by
        injection h with h1 h2
      obtain ⟨h3, h4⟩ := ih as2 ys bs
        (fun hm => hxs (List.mem_cons_of_mem _ hm))
        (fun hm => has (List.mem_cons_of_mem _ hm)) htl
      exact ⟨by rw [hxa, h3], h4⟩

theorem renderPath_inj :
    ∀ p q : List String, (∀ s ∈ p, validName s = true) →
      (∀ s ∈ q, validName s = true) →
      renderPath p = renderPath q → p = q := by
  intro p
  induction p with
  | nil =>
    intro q hp hq h
    cases q with
    | nil => rfl
    | cons b r => exact absurd h.symm (renderPath_ne_empty hq (by simp))
  | cons a p2 ih =>
    intro q hp hq h
    cases q with
    | nil => exact absurd h (renderPath_ne_empty hp (by simp))
    | cons b r =>
      cases p2 with
      | nil =>
        cases r with
        | nil =>
          simp only [renderPath] at h
          rw [h]
        | cons c2 r2 =>
          exfalso
          simp only [renderPath] at h
          have hdata := congrArg String.data h
          simp only [String.data_append] at hdata
          have hmem : '/' ∈ a.data := by
            rw [hdata]
            simp
          exact (validName_spec (hp a (by simp))).2 hmem
      | cons c2 p3 =>
        cases r with
        | nil =>
          exfalso
          simp only [renderPath] at h
          have hdata := congrArg String.data h
          simp only [String.data_append] at hdata
          have hmem : '/' ∈ b.data := by
            rw [← hdata]
            simp
          exact (validName_spec (hq b (by simp))).2 hmem
        | cons c3 r3 =>
          simp only [renderPath] at h
          have hdata := congrArg String.data h
          simp only [String.data_append, List.append_assoc] at hdata
          simp only [List.singleton_append] at hdata
          obtain ⟨h1, h2⟩ := sep_split a.data b.data
            (renderPath (c2 :: p3)).data (renderPath (c3 :: r3)).data
            (validName_spec (hp a (by simp))).2
            (validName_spec (hq b (by simp))).2 hdata
          have hab : a = b := String.ext h1
          have htail : renderPath (c2 :: p3) = renderPath (c3 :: r3) :=
            String.ext h2
          have := ih (c3 :: r3)
            (fun s hs => hp s (List.mem_cons_of_mem _ hs))
            (fun s hs => hq s (List.mem_cons_of_mem _ hs)) htail
          rw [hab, this]

/-- Paths that resolve to some node in a well-formed tree consist of valid
names. -/
theorem nodeAt_valid :
    ∀ (p : List String) (fs : FSNode), goodTree fs = true →
      ∀ x, nodeAt fs p = some x → ∀ s ∈ p, validName s = true := by
  intro p
  induction p with
  | nil => intro fs _ x _ s hs; simp at hs
  | cons a q ih =>
    intro fs hg x hx s hs
    cases fs with
    | file c => simp [nodeAt] at hx
    | badDir m => simp [nodeAt] at hx
    | dir entries =>
      simp only [nodeAt] at hx
      cases hfind : findEntry a entries with
      | none => rw [hfind] at hx; simp at hx
      | some child =>
        rw [hfind] at hx
        have hmem := findEntry_mem hfind
        obtain ⟨hva, hgc⟩ := goodTree_mem hg _ hmem
        rcases List.mem_cons.mp hs with rfl | hs2
        · exact hva
        · exact ih child hgc x hx s hs2

/-- C1: On a well-formed tree the recursive walker succeeds and returns
exactly the set of regular files reachable from the base directory, each
exactly once, as paths relative to the base directory, and no directory
ever appears in the output. -/
theorem walker_exact (entries : List (String × FSNode))
    (hg : goodTree (.dir entries) = true) :
    ∃ out, listFilesRecursively (.dir entries) [] = .ok out ∧
      out.Nodup ∧
      (∀ s, s ∈ out ↔
        ∃ p c, nodeAt (.dir entries) p = some (.file c) ∧
          s = renderPath p) ∧
      (∀ s ∈ out, ¬ ∃ p e2, nodeAt (.dir entries) p = some (.dir e2) ∧
        s = renderPath p) := by
  have hw := walker_eq_filePaths _ hg rfl []
  simp only [List.nil_append] at hw
  refine ⟨_, hw, ?_, ?_, ?_⟩
  · apply List.Nodup.map_on
    · intro x hx y hy hxy
      exact renderPath_inj x y
        (filePaths_valid _ hg x hx).2 (filePaths_valid _ hg y hy).2 hxy
    · exact filePaths_nodup _ hg
  · intro s
    constructor
    · intro hs
      obtain ⟨p, hp, rfl⟩ := List.mem_map.mp hs
      obtain ⟨hne, c, hc⟩ := (mem_filePaths _ hg p).mp hp
      exact ⟨p, c, hc, rfl⟩
    · rintro ⟨p, c, hc, rfl⟩
      apply List.mem_map.mpr
      refine ⟨p, ?_, rfl⟩
      apply (mem_filePaths _ hg p).mpr
      refine ⟨?_, c, hc⟩
      intro hpnil
      subst hpnil
      simp [nodeAt] at hc
  · intro s hs
    rintro ⟨p, e2, hp, rfl⟩
    obtain ⟨p0, hp0, hrp⟩ := List.mem_map.mp hs
    obtain ⟨hne0, c0, hc0⟩ := (mem_filePaths _ hg p0).mp hp0
    have hvp0 := (filePaths_valid _ hg p0 hp0).2
    have hvp := nodeAt_valid p _ hg _ hp
    have hpp : p0 = p := renderPath_inj p0 p hvp0 hvp hrp
    subst hpp
    rw [hc0] at hp
    simp at hp

theorem c1_witness : ∃ out,
    listFilesRecursively (.dir [("a.txt", .file "hi"),
      ("sub", .dir [("b.txt", .file "yo")])]) [] = .ok out ∧
    out.Nodup ∧
    (∀ s, s ∈ out ↔ ∃ p c,
      nodeAt (.dir [("a.txt", .file "hi"),
        ("sub", .dir [("b.txt", .file "yo")])]) p = some (.file c) ∧
      s = renderPath p) ∧
    (∀ s ∈ out, ¬ ∃ p e2,
      nodeAt (.dir [("a.txt", .file "hi"),
        ("sub", .dir [("b.txt", .file "yo")])]) p = some (.dir e2) ∧
      s = renderPath p) :=
  walker_exact [("a.txt", .file "hi"), ("sub", .dir [("b.txt", .file "yo")])]
    (by decide)

theorem walker_entry_error :
    ∀ (entries : List (String × FSNode)) (pre : List String)
      (n : String) (c : FSNode), (n, c) ∈ entries → isDirNode c = true →
      (∃ e, listFilesRecursively c (pre ++ [n]) = .error e) →
      ∃ e2, listFilesRecursively (.dir entries) pre = .error e2 := by
  intro entries
  induction entries with
  | nil => intro pre n c hmem; simp at hmem
  | cons hd tl ih =>
    obtain ⟨n1, c1⟩ := hd
    intro pre n c hmem hdir herr
    rcases List.mem_cons.mp hmem with heq | hmem2
    · cases heq
      obtain ⟨e, he⟩ := herr
      refine ⟨e, ?_⟩
      simp [listFilesRecursively_dir_cons, hdir, he]
    · obtain ⟨e2, he2⟩ := ih pre n c hmem2 hdir herr
      by_cases hdir1 : isDirNode c1 = true
      · cases hc1 : listFilesRecursively c1 (pre ++ [n1]) with
        | error e3 =>
          exact ⟨e3, by simp [listFilesRecursively_dir_cons, hdir1, hc1]⟩
        | ok sub =>
          exact ⟨e2, by simp [listFilesRecursively_dir_cons, hdir1, hc1, he2]⟩
      · exact ⟨e2, by simp [listFilesRecursively_dir_cons, hdir1, he2]⟩

theorem nodeAt_badDir_error :
    ∀ (p : List String) (fs : FSNode) (m : String),
      nodeAt fs p = some (.badDir m) →
      ∀ pre, ∃ e, listFilesRecursively fs pre = .error e := by
  intro p
  induction p with
  | nil =>
    intro fs m h pre
    simp only [nodeAt, Option.some.injEq] at h
    subst h
    exact ⟨m, by simp [listFilesRecursively_badDir]⟩
  | cons n q ih =>
    intro fs m h pre
    cases fs with
    | file c => simp [nodeAt] at h
    | badDir m2 => simp [nodeAt] at h
    | dir entries =>
      simp only [nodeAt] at h
      cases hfind : findEntry n entries with
      | none => rw [hfind] at h; simp at h
      | some child =>
        rw [hfind] at h
        have hmem := findEntry_mem hfind
        have hdirc : isDirNode child = true := by
          cases child with
          | file c2 =>
            cases q with
            | nil => simp [nodeAt] at h
            | cons a b => simp [nodeAt] at h
          | dir e => rfl
          | badDir m3 => rfl
        exact walker_entry_error entries pre n child hmem hdirc
          (ih child m h (pre ++ [n]))

/-- C8: If any directory read in the tree fails, the recursive walk aborts
with an error for that whole call: no partial file list is ever returned. -/
theorem walker_aborts_on_io_error (fs : FSNode) (p : List String)
    (m : String) (pre : List String)
    (h : nodeAt fs p = some (.badDir m)) :
    (∃ e, listFilesRecursively fs pre = .error e) ∧
      ∀ out, listFilesRecursively fs pre ≠ .ok out := by
  obtain ⟨e, he⟩ := nodeAt_badDir_error p fs m h pre
  refine ⟨⟨e, he⟩, ?_⟩
  intro out hout
  rw [he] at hout
  simp at hout

theorem c8_witness :
    (∃ e, listFilesRecursively (.dir [("ok.txt", .file "fine"),
      ("locked", .badDir "EACCES: permission denied")]) [] = .error e) ∧
    ∀ out, listFilesRecursively (.dir [("ok.txt", .file "fine"),
      ("locked", .badDir "EACCES: permission denied")]) [] ≠ .ok out :=
  walker_aborts_on_io_error _ ["locked"] "EACCES: permission denied" []
    (by simp [nodeAt, findEntry])

theorem listIncludes_nil (hay : List Char) : listIncludes [] hay = true := by
  cases hay with
  | nil => rfl
  | cons b bs => rw [listIncludes]; simp [listStarts]

theorem listStarts_iff :
    ∀ needle hay : List Char, listStarts needle hay = true ↔
      ∃ rest, hay = needle ++ rest := by
  intro needle
  induction needle with
  | nil => intro hay; simp [listStarts]
  | cons a as ih =>
    intro hay
    cases hay with
    | nil => simp [listStarts]
    | cons b bs =>
      simp only [listStarts, Bool.and_eq_true, beq_iff_eq, List.cons_append]
      constructor
      · rintro ⟨heq, hstart⟩
        obtain ⟨rest, hrest⟩ := (ih bs).mp hstart
        exact ⟨rest, by rw [heq, hrest]⟩
      · rintro ⟨rest, heq⟩
        have h1 : b = a := by injection heq
        have h2 : bs = as ++ rest := by injection heq
        exact ⟨h1.symm, (ih bs).mpr ⟨rest, h2⟩⟩

theorem listIncludes_iff :
    ∀ hay needle : List Char, listIncludes needle hay = true ↔
      ∃ l r, hay = l ++ needle ++ r := by
  intro hay
  induction hay with
  | nil =>
    intro needle
    constructor
    · intro h
      cases needle with
      | nil => exact ⟨[], [], rfl⟩
      | cons a as => simp [listIncludes, listStarts] at h
    · rintro ⟨l, r, hlr⟩
      have h2 := hlr.symm
      simp only [List.append_eq_nil] at h2
      obtain ⟨⟨rfl, rfl⟩, rfl⟩ := h2
      rfl
  | cons b bs ih =>
    intro needle
    rw [listIncludes]
    simp only [Bool.or_eq_true]
    constructor
    · rintro (hstart | hrest)
      · obtain ⟨rest, hrest⟩ := (listStarts_iff needle (b :: bs)).mp hstart
        exact ⟨[], rest, by simpa using hrest⟩
      · obtain ⟨l, r, hlr⟩ := (ih needle).mp hrest
        exact ⟨b :: l, r, by simp [hlr]⟩
    · rintro ⟨l, r, hlr⟩
      cases l with
      | nil =>
        left
        apply (listStarts_iff needle (b :: bs)).mpr
        exact ⟨r, by simpa using hlr⟩
      | cons x l2 =>
        right
        simp only [List.cons_append] at hlr
        have h2 : bs = l2 ++ needle ++ r := by injection hlr
        exact (ih needle).mpr ⟨l2, r, h2⟩

/-- C2: on `list-files`, a missing or false `recursive` flag returns the
immediate entry names of the base directory from one non-recursive
directory read; a true flag returns exactly the recursive walker output. -/
theorem callTool_listFiles (fs : FSNode) (entries : List (String × FSNode))
    (req : CallToolRequest) (hname : req.name = "list-files")
    (hfs : fs = .dir entries) :
    ((req.arguments.bind ToolArgs.recursive).getD false = false →
      (callTool fs req).1 = .ok (.fileList (entries.map Prod.fst))) ∧
    ((req.arguments.bind ToolArgs.recursive).getD false = true →
      ∀ out, listFilesRecursively fs [] = .ok out →
        (callTool fs req).1 = .ok (.fileList out)) := by
  subst hfs
  constructor
  · intro hrec
    simp [callTool, hname, hrec, readdirNames]
  · intro hrec out hout
    simp [callTool, hname, hrec, hout]

theorem c2_witness :
    (callTool (.dir [("a.txt", .file "hi"),
        ("sub", .dir [("b.txt", .file "yo")])])
      ⟨"list-files", none⟩).1 = .ok (.fileList ["a.txt", "sub"]) ∧
    (callTool (.dir [("a.txt", .file "hi"),
        ("sub", .dir [("b.txt", .file "yo")])])
      ⟨"list-files", some ⟨some true, none⟩⟩).1 =
        .ok (.fileList ["a.txt", "sub/b.txt"]) := by
  constructor
  · have h := (callTool_listFiles
      (.dir [("a.txt", .file "hi"), ("sub", .dir [("b.txt", .file "yo")])])
      [("a.txt", .file "hi"), ("sub", .dir [("b.txt", .file "yo")])]
      ⟨"list-files", none⟩ rfl rfl).1 (by simp)
    simpa using h
  · exact (callTool_listFiles
      (.dir [("a.txt", .file "hi"), ("sub", .dir [("b.txt", .file "yo")])])
      [("a.txt", .file "hi"), ("sub", .dir [("b.txt", .file "yo")])]
      ⟨"list-files", some ⟨some true, none⟩⟩ rfl rfl).2 (by simp)
      ["a.txt", "sub/b.txt"] rfl

/-- C3: on `read-file`, a missing or empty path argument fails with the
validation error whatever the filesystem looks like (no filesystem access
is involved); a path naming a readable file returns its contents. -/
theorem callTool_readFile (req : CallToolRequest)
    (hname : req.name = "read-file") :
    ((req.arguments.bind ToolArgs.path = none ∨
        req.arguments.bind ToolArgs.path = some "") →
      ∀ fs fs2 : FSNode,
        (callTool fs req).1 = .error "Path is required" ∧
        (callTool fs req).1 = (callTool fs2 req).1) ∧
    (∀ p (fs : FSNode) c, req.arguments.bind ToolArgs.path = some p →
      p ≠ "" → nodeAt fs (splitPath p) = some (.file c) →
      (callTool fs req).1 = .ok (.fileText c)) := by
  constructor
  · intro hpath fs fs2
    rcases hpath with h | h
    · constructor <;> simp [callTool, hname, h]
    · constructor <;> simp [callTool, hname, h]
  · intro p fs c hp hpne hnode
    simp [callTool, hname, hp, hpne, readFileRel, readFileFS, hnode]

theorem c3_witness :
    (callTool (.dir [("sub", .dir [("a.txt", .file "hello")])])
      ⟨"read-file", some ⟨none, some "sub/a.txt"⟩⟩).1 =
        .ok (.fileText "hello") ∧
    (callTool (.dir [("x", .file "y")]) ⟨"read-file", none⟩).1 =
      .error "Path is required" ∧
    (callTool (.dir [("x", .file "y")]) ⟨"read-file", none⟩).1 =
      (callTool (.badDir "gone") ⟨"read-file", none⟩).1 := by
  refine ⟨?_, ?_, ?_⟩
  · exact (callTool_readFile ⟨"read-file", some ⟨none, some "sub/a.txt"⟩⟩
      rfl).2 "sub/a.txt" _ "hello" rfl (by simp) rfl
  · exact ((callTool_readFile ⟨"read-file", none⟩ rfl).1 (Or.inl rfl)
      (.dir [("x", .file "y")]) (.badDir "gone")).1
  · exact ((callTool_readFile ⟨"read-file", none⟩ rfl).1 (Or.inl rfl)
      (.dir [("x", .file "y")]) (.badDir "gone")).2

/-- C4: completing the `path` argument of the `file-contents` prompt
returns exactly those walker entries whose lowered relative path contains
the lowered query as a contiguous substring, in walker order (a filter of
the walker output), with no result limit. -/
theorem complete_filters (fs : FSNode) (q : String) (files : List String)
    (hw : listFilesRecursively fs [] = .ok files) :
    completeHandler fs FILE_PROMPT_NAME q =
      .ok (files.filter (fun f => strIncludes (lowerStr f) (lowerStr q))) ∧
    ∀ f : String, strIncludes (lowerStr f) (lowerStr q) = true ↔
      ∃ l r, (lowerStr f).data = l ++ (lowerStr q).data ++ r := by
  constructor
  · simp [completeHandler, hw]
  · intro f
    simpa [strIncludes] using listIncludes_iff (lowerStr f).data (lowerStr q).data

theorem c4_witness :
    completeHandler (.dir [("src", .dir [("Foo.txt", .file "1"),
        ("baz.txt", .file "2")]),
      ("bar", .dir [("foobar.md", .file "3")])]) FILE_PROMPT_NAME "foo" =
      .ok ["src/Foo.txt", "bar/foobar.md"] := by
  have h := (complete_filters (.dir [("src", .dir [("Foo.txt", .file "1"),
        ("baz.txt", .file "2")]),
      ("bar", .dir [("foobar.md", .file "3")])]) "foo"
      ["src/Foo.txt", "src/baz.txt", "bar/foobar.md"] rfl).1
  rw [h]
  rfl

/-- C5: the resource list is the walker output mapped one-to-one (no
filtering, deduplication or pagination) to resources whose URI is the
`file://` scheme joined with the absolute path, whose MIME type is the
fixed `text/plain`, and whose display name is the relative path. -/
theorem listResources_spec (baseDir : String) (fs : FSNode)
    (files : List String) (hw : listFilesRecursively fs [] = .ok files) :
    listResources baseDir fs =
      .ok (files.map (fun file =>
        { uri := "file://" ++ joinPath baseDir file,
          mimeType := "text/plain", name := file })) ∧
    (files.map (fun file =>
      ({ uri := "file://" ++ joinPath baseDir file,
         mimeType := "text/plain", name := file } : MCPResource))).length =
      files.length := by
  constructor
  · simp [listResources, hw]
  · simp

theorem c5_witness :
    listResources "/home/user/project"
      (.dir [("sub", .dir [("a.txt", .file "hello")])]) =
      .ok [{ uri := "file:///home/user/project/sub/a.txt",
             mimeType := "text/plain", name := "sub/a.txt" }] := by
  have h := (listResources_spec "/home/user/project"
      (.dir [("sub", .dir [("a.txt", .file "hello")])]) ["sub/a.txt"]
      rfl).1
  rw [h]
  rfl

/-- C6: a call-tool request naming neither `list-files` nor `read-file`
fails with the `Tool not found` error, and no call-tool request ever
changes the filesystem. -/
theorem callTool_unknown (fs : FSNode) (req : CallToolRequest)
    (h1 : req.name ≠ "list-files") (h2 : req.name ≠ "read-file") :
    (callTool fs req).1 = .error "Tool not found" ∧
      ∀ r : CallToolRequest, (callTool fs r).2 = fs := by
  constructor
  · simp [callTool, h1, h2]
  · intro r
    unfold callTool
    simp only []
    repeat' split
    all_goals rfl

theorem c6_witness :
    (callTool (.dir [("a.txt", .file "hi")]) ⟨"delete-file", none⟩).1 =
      .error "Tool not found" ∧
    (callTool (.dir [("a.txt", .file "hi")]) ⟨"delete-file", none⟩).2 =
      .dir [("a.txt", .file "hi")] := by
  refine ⟨(callTool_unknown (.dir [("a.txt", .file "hi")])
    ⟨"delete-file", none⟩ (by simp) (by simp)).1, ?_⟩
  exact (callTool_unknown (.dir [("a.txt", .file "hi")])
    ⟨"delete-file", none⟩ (by simp) (by simp)).2 ⟨"delete-file", none⟩

/-- C7: a get-prompt request for `file-contents` whose path argument is
missing (or not a string) or empty fails with the `Invalid path`
validation error, identically on every filesystem: no I/O is involved. -/
theorem getPrompt_invalid_path (pathArg : Option String)
    (hbad : pathArg = none ∨ pathArg = some "") (fs fs2 : FSNode) :
    getPrompt fs FILE_PROMPT_NAME pathArg =
      .error ("Invalid path: " ++ pathArg.getD "undefined") ∧
    getPrompt fs FILE_PROMPT_NAME pathArg =
      getPrompt fs2 FILE_PROMPT_NAME pathArg := by
  rcases hbad with rfl | rfl <;> simp [getPrompt]

theorem c7_witness :
    getPrompt (.dir [("a.txt", .file "hi")]) FILE_PROMPT_NAME (some "") =
      .error "Invalid path: " ∧
    getPrompt (.dir [("a.txt", .file "hi")]) FILE_PROMPT_NAME (some "") =
      getPrompt (.badDir "EIO") FILE_PROMPT_NAME (some "") := by
  have h := getPrompt_invalid_path (some "") (Or.inr rfl)
    (.dir [("a.txt", .file "hi")]) (.badDir "EIO")
  exact ⟨by simpa using h.1, h.2⟩

/-- C9: reading a resource takes the URI pathname and reads it as an
absolute path from the filesystem root, with no resolution against and no
containment check relative to the base directory: a readable file whose
path is not under the base directory is returned all the same. -/
theorem readResource_no_containment (root : FSNode) (baseSegs : List String)
    (uri : String) (segs : List String) (c : String)
    (hparse : splitPath (uriPathname uri) = "" :: segs)
    (hfile : nodeAt root segs = some (.file c))
    (houtside : ¬ ∃ rest, segs = baseSegs ++ rest) :
    readResource root uri =
      .ok { uri := uri, mimeType := "text/plain", text := c } := by
  simp [readResource, readFileAbs, hparse, readFileFS, hfile]

theorem c9_witness :
    readResource
      (.dir [("etc", .dir [("passwd", .file "root:x:0:0")]),
        ("home", .dir [("user", .dir [("a.txt", .file "hi")])])])
      "file:///etc/passwd" =
      .ok { uri := "file:///etc/passwd", mimeType := "text/plain",
            text := "root:x:0:0" } := by
  exact readResource_no_containment _ ["home", "user"] "file:///etc/passwd"
    ["etc", "passwd"] "root:x:0:0"
    rfl rfl (by rintro ⟨rest, h⟩; simp at h)

/-- C10: completing with the empty query is the identity on the walker
output: every path passes the case-insensitive substring test against the
empty string, so the filter keeps the whole list in order. -/
theorem complete_empty_query (fs : FSNode) (files : List String)
    (hw : listFilesRecursively fs [] = .ok files) :
    completeHandler fs FILE_PROMPT_NAME "" = .ok files ∧
    ∀ s : String, strIncludes (lowerStr s) (lowerStr "") = true := by
  have hincl : ∀ s : String, strIncludes (lowerStr s) (lowerStr "") = true := by
    intro s
    simp only [strIncludes, lowerStr]
    exact listIncludes_nil _
  refine ⟨?_, hincl⟩
  have hfilter : files.filter
      (fun file => strIncludes (lowerStr file) (lowerStr "")) = files :=
    List.filter_eq_self.mpr (fun a _ => hincl a)
  simp [completeHandler, hw, hfilter]

theorem c10_witness :
    completeHandler (.dir [("a.txt", .file "hi"),
      ("sub", .dir [("b.txt", .file "yo")])]) FILE_PROMPT_NAME "" =
      .ok ["a.txt", "sub/b.txt"] :=
  (complete_empty_query (.dir [("a.txt", .file "hi"),
      ("sub", .dir [("b.txt", .file "yo")])]) ["a.txt", "sub/b.txt"]
    rfl).1
